import Mathlib

/-!
# fibdrv: a shallow embedding of the Fibonacci character device

The definitions below follow `src/fibdrv.c` function by function.

* `unsigned long long` values are natural numbers, every arithmetic operation
  being reduced modulo `2 ^ 64` explicitly.
* `long long`, `loff_t` and `int` values are integers; signed additions are
  wrapped to their two's-complement range (the kernel is built with wrapping
  signed arithmetic).
* The three `vmalloc`ed `BigNum` cells of `fib_sequence` are a three-cell heap
  addressed by pointers in `Fin 3`; allocation failure is not modelled.
* User memory (`buf`) and the stack array `str` are maps from an index to a
  byte; the content `str` has on entry is an arbitrary parameter.
-/

namespace Fibdrv

/-! ## Data model -/

/-- The constant `MAX_LENGTH` of the driver. -/
def MAX_LENGTH : Int := 100

/-- The largest `int`. -/
def INT_MAX : Int := 2 ^ 31 - 1

/-- The struct `BigNum`: two `unsigned long long` limbs. -/
structure BigNum where
  lower : Nat
  upper : Nat
deriving DecidableEq

/-- Both limbs are in the range of `unsigned long long`. -/
def BigNum.wf (b : BigNum) : Prop := b.lower < 2 ^ 64 ∧ b.upper < 2 ^ 64

instance (b : BigNum) : Decidable b.wf := by
  unfold BigNum.wf
  exact inferInstance

/-- The natural number a `BigNum` stands for. -/
def BigNum.value (b : BigNum) : Nat := b.upper * 2 ^ 64 + b.lower

/-- Bitwise complement `~x` of an `unsigned long long`. -/
def not64 (x : Nat) : Nat := 2 ^ 64 - 1 - x % 2 ^ 64

/-- Conversion of a `long long` to `unsigned long long`. -/
def toU64 (k : Int) : Nat := (k % 2 ^ 64).toNat

/-- Reduction of an integer to the range of a signed 64-bit integer. -/
def wrapS64 (x : Int) : Int := (x + 2 ^ 63) % 2 ^ 64 - 2 ^ 63

/-- The value is in the range of a signed 64-bit integer (`long long`, `loff_t`). -/
def inS64 (x : Int) : Prop := -(2 ^ 63) ≤ x ∧ x < 2 ^ 63

instance (x : Int) : Decidable (inS64 x) := by
  unfold inS64
  exact inferInstance

/-! ## BigNum arithmetic -/

/-- The function `addBigNum`: the first argument is the content of `*sum` on entry,
the result its content on return. -/
def addBigNum (sum x y : BigNum) : BigNum :=
  let sum := { sum with upper := (x.upper + y.upper) % 2 ^ 64 }
  let sum := if y.lower > not64 x.lower then { sum with upper := (sum.upper + 1) % 2 ^ 64 } else sum
  { sum with lower := (x.lower + y.lower) % 2 ^ 64 }

/-- The function `rightShiftBigNum`: the argument is `*num` on entry, the result `*num`
on return. -/
def rightShiftBigNum (num : BigNum) : BigNum :=
  let upper_rem := num.upper % 10
  let num := { num with upper := num.upper / 10 }
  let lower_rem := num.lower % 10
  let max_num_64 := 2 ^ 64 - 1
  { num with
    lower := ((num.lower / 10 + (upper_rem * (max_num_64 / 10)) % 2 ^ 64) % 2 ^ 64 +
              ((lower_rem + (upper_rem * 6) % 2 ^ 64) % 2 ^ 64) / 10) % 2 ^ 64 }

/-! ## The Fibonacci generator -/

/-- A pointer to one of the three allocated cells. -/
abbrev Ptr := Fin 3

/-- The three `BigNum` cells allocated by `fib_sequence`, in allocation order. -/
structure Heap where
  c0 : BigNum
  c1 : BigNum
  c2 : BigNum
deriving DecidableEq

/-- Dereference a pointer. -/
def Heap.read (h : Heap) (p : Ptr) : BigNum :=
  match p with
  | 0 => h.c0
  | 1 => h.c1
  | 2 => h.c2

/-- Store through a pointer. -/
def Heap.write (h : Heap) (p : Ptr) (v : BigNum) : Heap :=
  match p with
  | 0 => { h with c0 := v }
  | 1 => { h with c1 := v }
  | 2 => { h with c2 := v }

/-- The local variables of `fib_sequence` together with the cells they point to. -/
structure FibState where
  heap : Heap
  first : Ptr
  second : Ptr
  next : Ptr
  temp : Ptr
deriving DecidableEq

/-- The state of `fib_sequence k` when the `for` loop is entered. -/
def fib_init (k : Int) : FibState :=
  { heap := { c0 := { lower := 0, upper := 0 },
              c1 := { lower := 1, upper := 0 },
              c2 := { lower := toU64 k, upper := 0 } },
    first := 0, second := 1, next := 2, temp := 2 }

/-- One execution of the body of the `for` loop of `fib_sequence`. -/
def fib_body (s : FibState) : FibState :=
  let heap := s.heap.write s.next
    (addBigNum (s.heap.read s.next) (s.heap.read s.first) (s.heap.read s.second))
  let temp := s.next
  let next := s.first
  let first := s.second
  let second := temp
  { heap := heap, first := first, second := second, next := next, temp := temp }

/-- The loop `for (int i = 2; i <= k; i++)` of `fib_sequence`, from the test of the
guard with counter `i`. The result is `none` when the fuel runs out and when `i++`
would leave the range of `int` (the counter then never exceeds `k`, and the loop
does not end). -/
def fib_loop (k : Int) : Nat → Int → FibState → Option FibState
  | 0, _, _ => none
  | fuel + 1, i, s =>
    if i ≤ k then
      if i = INT_MAX then none else fib_loop k fuel (i + 1) (fib_body s)
    else some s

/-- The state in which `fib_sequence k` returns. The fuel covers the `k - 1` iterations
and the last test of the guard. -/
def fib_sequence_state (k : Int) : Option FibState :=
  fib_loop k ((k - 1).toNat + 1) 2 (fib_init k)

/-- The function `fib_sequence`: the cell the returned pointer `temp` points to. -/
def fib_sequence (k : Int) : Option BigNum :=
  (fib_sequence_state k).map fun s => s.heap.read s.temp

/-! ## The read, write and seek operations -/

/-- A byte-addressed memory. -/
abbrev Mem := Nat → Nat

/-- Store the byte `v` at index `i`. -/
def Mem.set (m : Mem) (i v : Nat) : Mem := fun j => if j = i then v else m j

/-- The loop state of `fib_read`. -/
structure ReadState where
  num : BigNum
  str : Mem
  idx : Nat

/-- The body of the loop `while (idx < 44)` of `fib_read` up to the test of the `break`:
one digit is stored in `str[idx]` and `*num` is divided by ten. -/
def fib_read_body (s : ReadState) : ReadState :=
  if s.num.upper ≠ 0 then
    { s with
      str := s.str.set s.idx
        ((((s.num.lower % 10 + ((s.num.upper % 10) * 6) % 2 ^ 64) % 2 ^ 64) % 10 + 48)
          % 2 ^ 64 % 256),
      num := rightShiftBigNum s.num }
  else
    { s with
      str := s.str.set s.idx ((s.num.lower % 10 + 48) % 2 ^ 64 % 256),
      num := { s.num with lower := s.num.lower / 10 } }

/-- The loop `while (idx < 44)` of `fib_read`. The first argument is the number
`44 - idx` of iterations the guard still allows. -/
def fib_read_loop : Nat → ReadState → ReadState
  | 0, s => s
  | n + 1, s =>
    let s := fib_read_body s
    if s.num.lower = 0 ∧ s.num.upper = 0 then s
    else fib_read_loop n { s with idx := s.idx + 1 }

/-- The loop `for (int j = idx; j >= 0; --j) buf[j] = str[idx - j]` of `fib_read`,
from counter value `j`. -/
def fib_read_copy (str : Mem) (idx : Nat) : Nat → Mem → Mem
  | 0, buf => buf.set 0 (str (idx - 0))
  | j + 1, buf => fib_read_copy str idx j (buf.set (j + 1) (str (idx - (j + 1))))

/-- The rendering part of `fib_read`: everything after the call of `fib_sequence`,
for the `BigNum` it returned. The result is the final `idx` and the final `buf`. -/
def fib_render (num : BigNum) (str : Mem) (buf : Mem) : Nat × Mem :=
  let s := fib_read_loop 44 { num := num, str := str, idx := 0 }
  let buf := buf.set (s.idx + 1) 0
  (s.idx, fib_read_copy s.str s.idx s.idx buf)

/-- What a call of `fib_read` leaves behind. -/
structure ReadResult where
  ret : Int
  buf : Mem
  offset : Int

/-- The function `fib_read`: `str` is the content of the stack array on entry, `buf` the
user memory, `offset` the value of `*offset`. The result is `none` when `fib_sequence`
does not return. -/
def fib_read (str : Mem) (buf : Mem) (size : Nat) (offset : Int) : Option ReadResult :=
  let _ := size
  (fib_sequence offset).map fun num =>
    { ret := 1, buf := (fib_render num str buf).2, offset := offset }

/-- What a call of `fib_write` leaves behind: the returned value, the user memory and
the value of `*offset`. -/
structure WriteResult where
  ret : Int
  buf : Mem
  offset : Int

/-- The function `fib_write`: `buf` is the user memory, `offset` the value of `*offset`.
The body is `return 1`: nothing is stored through `buf` or `offset`. -/
def fib_write (buf : Mem) (size : Nat) (offset : Int) : WriteResult :=
  let _ := size
  { ret := 1, buf := buf, offset := offset }

/-- The function `fib_device_lseek`: `f_pos` is `file->f_pos` on entry; the result is
`file->f_pos` on return and the returned value. -/
def fib_device_lseek (f_pos : Int) (offset : Int) (orig : Int) : Int × Int :=
  let new_pos : Int := 0
  let new_pos :=
    if orig = 0 then offset
    else if orig = 1 then wrapS64 (f_pos + offset)
    else if orig = 2 then wrapS64 (MAX_LENGTH - offset)
    else new_pos
  let new_pos := if new_pos > MAX_LENGTH then MAX_LENGTH else new_pos
  let new_pos := if new_pos < 0 then 0 else new_pos
  (new_pos, new_pos)

/-- The upper branch of the body of the loop of `fib_read`, taken whatever `upper` is:
the digit is `(lower % 10 + (upper % 10) * 6) % 10` and `*num` goes through
`rightShiftBigNum`. -/
def fib_read_body_upper (s : ReadState) : ReadState :=
  { s with
    str := s.str.set s.idx
      ((((s.num.lower % 10 + ((s.num.upper % 10) * 6) % 2 ^ 64) % 2 ^ 64) % 10 + 48)
        % 2 ^ 64 % 256),
    num := rightShiftBigNum s.num }

/-- The loop of `fib_read` with the body that always takes the upper branch. -/
def fib_read_loop_upper : Nat → ReadState → ReadState
  | 0, s => s
  | n + 1, s =>
    let s := fib_read_body_upper s
    if s.num.lower = 0 ∧ s.num.upper = 0 then s
    else fib_read_loop_upper n { s with idx := s.idx + 1 }

/-- The rendering of `fib_read` with the body that always takes the upper branch. -/
def fib_render_upper (num : BigNum) (str : Mem) (buf : Mem) : Nat × Mem :=
  let s := fib_read_loop_upper 44 { num := num, str := str, idx := 0 }
  let buf := buf.set (s.idx + 1) 0
  (s.idx, fib_read_copy s.str s.idx s.idx buf)

/-- The first `n` bytes of a memory. -/
def Mem.take (m : Mem) (n : Nat) : List Nat := (List.range n).map m

/-- The bytes of the decimal numeral of `n`, most significant digit first: the
character codes of `Nat.repr n`. -/
def decimalBytes (n : Nat) : List Nat := (Nat.toDigits 10 n).map Char.toNat

/-- The decimal digits of `n`, least significant first, with the single digit 0 for 0. -/
def digitsLE (n : Nat) : List Nat := if n = 0 then [0] else Nat.digits 10 n

/-! ## Limb arithmetic -/

theorem not64_eq (x : Nat) (h : x < 2 ^ 64) : not64 x = 2 ^ 64 - 1 - x := by
  unfold not64
  rw [Nat.mod_eq_of_lt h]

theorem addBigNum_lower (s x y : BigNum) :
    (addBigNum s x y).lower = (x.lower + y.lower) % 2 ^ 64 := by
  unfold addBigNum
  rfl

theorem addBigNum_upper (s x y : BigNum) (hx : x.wf) :
    (addBigNum s x y).upper =
      (x.upper + y.upper + if 2 ^ 64 ≤ x.lower + y.lower then 1 else 0) % 2 ^ 64 := by
  obtain ⟨hxl, _⟩ := hx
  unfold addBigNum
  simp only [not64_eq _ hxl]
  by_cases hc : y.lower > 2 ^ 64 - 1 - x.lower
  · have h2 : 2 ^ 64 ≤ x.lower + y.lower := by omega
    simp only [hc, h2, if_true]
    omega
  · have h2 : ¬ 2 ^ 64 ≤ x.lower + y.lower := by omega
    simp only [hc, h2, if_false]
    omega

theorem addBigNum_wf (s x y : BigNum) : (addBigNum s x y).wf := by
  unfold addBigNum BigNum.wf
  constructor
  · exact Nat.mod_lt _ (by norm_num)
  · dsimp only
    split
    · exact Nat.mod_lt _ (by norm_num)
    · exact Nat.mod_lt _ (by norm_num)

theorem addBigNum_value (s x y : BigNum) (hx : x.wf) (hy : y.wf) :
    (addBigNum s x y).value = (x.value + y.value) % 2 ^ 128 := by
  have hu := addBigNum_upper s x y hx
  have hl := addBigNum_lower s x y
  obtain ⟨hxl, hxu⟩ := hx
  obtain ⟨hyl, hyu⟩ := hy
  unfold BigNum.value
  rw [hu, hl]
  by_cases hc : 2 ^ 64 ≤ x.lower + y.lower
  · simp only [hc, if_true]
    omega
  · simp only [hc, if_false]
    omega

theorem rightShiftBigNum_upper (num : BigNum) :
    (rightShiftBigNum num).upper = num.upper / 10 := by
  unfold rightShiftBigNum
  rfl

/-- None of the unsigned operations in the expression of `rightShiftBigNum` wraps. -/
theorem rightShift_no_wrap (lower upper : Nat) (hl : lower < 2 ^ 64) :
    upper % 10 * ((2 ^ 64 - 1) / 10) < 2 ^ 64 ∧
    lower / 10 + upper % 10 * ((2 ^ 64 - 1) / 10) < 2 ^ 64 ∧
    upper % 10 * 6 < 2 ^ 64 ∧
    lower % 10 + upper % 10 * 6 < 2 ^ 64 ∧
    lower / 10 + upper % 10 * ((2 ^ 64 - 1) / 10) + (lower % 10 + upper % 10 * 6) / 10
      < 2 ^ 64 := by
  have hm : (2 ^ 64 - 1) / 10 = 1844674407370955161 := by norm_num
  rw [hm]
  have hr : upper % 10 < 10 := Nat.mod_lt _ (by norm_num)
  refine ⟨by omega, by omega, by omega, by omega, by omega⟩

theorem rightShiftBigNum_lower_exact (num : BigNum) (h : num.wf) :
    (rightShiftBigNum num).lower =
      num.lower / 10 + num.upper % 10 * ((2 ^ 64 - 1) / 10) +
        (num.lower % 10 + num.upper % 10 * 6) / 10 := by
  obtain ⟨h1, h2, h3, h4, h5⟩ := rightShift_no_wrap num.lower num.upper h.1
  unfold rightShiftBigNum
  dsimp only
  rw [Nat.mod_eq_of_lt h1, Nat.mod_eq_of_lt h2, Nat.mod_eq_of_lt h3, Nat.mod_eq_of_lt h4,
    Nat.mod_eq_of_lt h5]

theorem rightShiftBigNum_lower (num : BigNum) (h : num.wf) :
    (rightShiftBigNum num).lower = (num.upper % 10 * 2 ^ 64 + num.lower) / 10 := by
  rw [rightShiftBigNum_lower_exact num h]
  have hm : (2 ^ 64 - 1) / 10 = 1844674407370955161 := by norm_num
  rw [hm]
  omega

theorem rightShiftBigNum_wf (num : BigNum) (h : num.wf) : (rightShiftBigNum num).wf := by
  have h1 := rightShiftBigNum_lower num h
  have h2 := rightShiftBigNum_upper num
  obtain ⟨hl, hu⟩ := h
  unfold BigNum.wf
  omega

theorem rightShiftBigNum_value (num : BigNum) (h : num.wf) :
    (rightShiftBigNum num).value = num.value / 10 := by
  have h1 := rightShiftBigNum_lower num h
  have h2 := rightShiftBigNum_upper num
  obtain ⟨hl, hu⟩ := h
  unfold BigNum.value
  omega

theorem BigNum.eq_of_value (a b : BigNum) (ha : a.wf) (hb : b.wf)
    (h : a.value = b.value) : a = b := by
  obtain ⟨al, au⟩ := a
  obtain ⟨bl, bu⟩ := b
  unfold BigNum.wf at ha hb
  unfold BigNum.value at h
  simp only at ha hb h
  have h1 : au = bu := by omega
  have h2 : al = bl := by omega
  rw [h1, h2]

theorem BigNum.value_lt (a : BigNum) (ha : a.wf) : a.value < 2 ^ 128 := by
  unfold BigNum.wf at ha
  unfold BigNum.value
  omega

/-! ## Claims on the limb arithmetic -/

/-- C3: for limbs in range, `addBigNum` stores the low limb `(x.lower + y.lower) mod 2^64`
and the high limb `(x.upper + y.upper + c) mod 2^64`, where the carry `c` is one exactly
when the low limbs sum to `2^64` or more, which is exactly when `y.lower > ~x.lower`; the
value stored is the sum modulo `2^128`, and the exact sum when that is below `2^128`. -/
theorem C3_addBigNum_sum (s x y : BigNum) (hx : x.wf) (hy : y.wf) :
    (2 ^ 64 ≤ x.lower + y.lower ↔ y.lower > not64 x.lower) ∧
    (addBigNum s x y).lower = (x.lower + y.lower) % 2 ^ 64 ∧
    (addBigNum s x y).upper =
      (x.upper + y.upper + if 2 ^ 64 ≤ x.lower + y.lower then 1 else 0) % 2 ^ 64 ∧
    (addBigNum s x y).value = (x.value + y.value) % 2 ^ 128 ∧
    (x.value + y.value < 2 ^ 128 → (addBigNum s x y).value = x.value + y.value) := by
  refine ⟨?_, addBigNum_lower s x y, addBigNum_upper s x y hx, addBigNum_value s x y hx hy, ?_⟩
  · rw [not64_eq _ hx.1]
    have := hx.1
    omega
  · intro h
    rw [addBigNum_value s x y hx hy, Nat.mod_eq_of_lt h]

theorem C3_addBigNum_sum_witness :
    (addBigNum ⟨0, 0⟩ ⟨2 ^ 64 - 1, 3⟩ ⟨5, 4⟩).lower = (2 ^ 64 - 1 + 5) % 2 ^ 64 ∧
    (addBigNum ⟨0, 0⟩ ⟨2 ^ 64 - 1, 3⟩ ⟨5, 4⟩).upper = 8 :=
  ⟨(C3_addBigNum_sum ⟨0, 0⟩ ⟨2 ^ 64 - 1, 3⟩ ⟨5, 4⟩ (by decide) (by decide)).2.1, by decide⟩

/-- C4: for limbs in range, `rightShiftBigNum` leaves the quotient of the value by ten:
the high limb is `upper / 10`, the low limb the low 64 bits of the quotient; and no
operation of `lower/10 + upper_rem*(max64/10) + (lower_rem + upper_rem*6)/10`, partial
sums included, reaches `2^64`, so the low limb is that expression unreduced. -/
theorem C4_rightShiftBigNum_div10 (num : BigNum) (h : num.wf) :
    (rightShiftBigNum num).value = num.value / 10 ∧
    (rightShiftBigNum num).upper = num.upper / 10 ∧
    (rightShiftBigNum num).lower = (num.value / 10) % 2 ^ 64 ∧
    (rightShiftBigNum num).wf ∧
    num.upper % 10 * ((2 ^ 64 - 1) / 10) < 2 ^ 64 ∧
    num.lower / 10 + num.upper % 10 * ((2 ^ 64 - 1) / 10) < 2 ^ 64 ∧
    num.upper % 10 * 6 < 2 ^ 64 ∧
    num.lower % 10 + num.upper % 10 * 6 < 2 ^ 64 ∧
    num.lower / 10 + num.upper % 10 * ((2 ^ 64 - 1) / 10) +
      (num.lower % 10 + num.upper % 10 * 6) / 10 < 2 ^ 64 ∧
    (rightShiftBigNum num).lower =
      num.lower / 10 + num.upper % 10 * ((2 ^ 64 - 1) / 10) +
        (num.lower % 10 + num.upper % 10 * 6) / 10 := by
  obtain ⟨h1, h2, h3, h4, h5⟩ := rightShift_no_wrap num.lower num.upper h.1
  refine ⟨rightShiftBigNum_value num h, rightShiftBigNum_upper num, ?_,
    rightShiftBigNum_wf num h, h1, h2, h3, h4, h5, rightShiftBigNum_lower_exact num h⟩
  have hv := rightShiftBigNum_value num h
  have hw := rightShiftBigNum_wf num h
  rw [← hv]
  unfold BigNum.value
  unfold BigNum.wf at hw
  omega

theorem C4_rightShiftBigNum_div10_witness :
    (rightShiftBigNum ⟨2 ^ 64 - 1, 2 ^ 64 - 1⟩).value = (⟨2 ^ 64 - 1, 2 ^ 64 - 1⟩ : BigNum).value / 10 :=
  (C4_rightShiftBigNum_div10 ⟨2 ^ 64 - 1, 2 ^ 64 - 1⟩ (by decide)).1

/-- C9: for limbs in range, `addBigNum` is commutative (the same limbs for `x, y` and
for `y, x`, whatever `*sum` held before), and it is associative for every `x`, `y`, `z`
whose sum stays below `2^128`. -/
theorem C9_addBigNum_comm_assoc (s s1 s2 s3 : BigNum) (x y z : BigNum)
    (hx : x.wf) (hy : y.wf) (hz : z.wf) :
    addBigNum s x y = addBigNum s1 y x ∧
    (x.value + y.value + z.value < 2 ^ 128 →
      addBigNum s (addBigNum s1 x y) z = addBigNum s2 x (addBigNum s3 y z)) := by
  constructor
  · apply BigNum.eq_of_value _ _ (addBigNum_wf _ _ _) (addBigNum_wf _ _ _)
    rw [addBigNum_value _ _ _ hx hy, addBigNum_value _ _ _ hy hx, Nat.add_comm]
  · intro _
    apply BigNum.eq_of_value _ _ (addBigNum_wf _ _ _) (addBigNum_wf _ _ _)
    rw [addBigNum_value _ _ _ (addBigNum_wf _ _ _) hz, addBigNum_value _ _ _ hx hy,
      addBigNum_value _ _ _ hx (addBigNum_wf _ _ _), addBigNum_value _ _ _ hy hz]
    omega

theorem C9_addBigNum_comm_assoc_witness :
    addBigNum ⟨0, 0⟩ ⟨2 ^ 64 - 1, 3⟩ ⟨5, 4⟩ = addBigNum ⟨7, 7⟩ ⟨5, 4⟩ ⟨2 ^ 64 - 1, 3⟩ ∧
    addBigNum ⟨0, 0⟩ (addBigNum ⟨7, 7⟩ ⟨2 ^ 64 - 1, 3⟩ ⟨5, 4⟩) ⟨2 ^ 64 - 2, 1⟩ =
      addBigNum ⟨1, 1⟩ ⟨2 ^ 64 - 1, 3⟩ (addBigNum ⟨2, 2⟩ ⟨5, 4⟩ ⟨2 ^ 64 - 2, 1⟩) :=
  ⟨(C9_addBigNum_comm_assoc ⟨0, 0⟩ ⟨7, 7⟩ ⟨1, 1⟩ ⟨2, 2⟩ ⟨2 ^ 64 - 1, 3⟩ ⟨5, 4⟩ ⟨2 ^ 64 - 2, 1⟩
      (by decide) (by decide) (by decide)).1,
   (C9_addBigNum_comm_assoc ⟨0, 0⟩ ⟨7, 7⟩ ⟨1, 1⟩ ⟨2, 2⟩ ⟨2 ^ 64 - 1, 3⟩ ⟨5, 4⟩ ⟨2 ^ 64 - 2, 1⟩
      (by decide) (by decide) (by decide)).2 (by decide)⟩

/-! ## Claims on the seek operation and on the base terms -/

theorem wrapS64_eq (x : Int) (h : inS64 x) : wrapS64 x = x := by
  unfold inS64 at h
  unfold wrapS64
  omega

/-- C5: when `f_pos + offset` and `100 - offset` are in the range of a signed 64-bit
integer, `fib_device_lseek` returns the clamp to `[0, 100]` of `offset`
for whence 0, of `f_pos + offset` for whence 1 and of `100 - offset` for whence 2; for
every whence the returned value lies in `[0, 100]` and is the new `file->f_pos`. -/
theorem C5_lseek_clamp (f_pos offset : Int)
    (hcur : inS64 (f_pos + offset)) (hend : inS64 (100 - offset)) :
    (fib_device_lseek f_pos offset 0).2 = max 0 (min offset 100) ∧
    (fib_device_lseek f_pos offset 1).2 = max 0 (min (f_pos + offset) 100) ∧
    (fib_device_lseek f_pos offset 2).2 = max 0 (min (100 - offset) 100) ∧
    ∀ orig : Int,
      0 ≤ (fib_device_lseek f_pos offset orig).2 ∧
      (fib_device_lseek f_pos offset orig).2 ≤ 100 ∧
      (fib_device_lseek f_pos offset orig).1 = (fib_device_lseek f_pos offset orig).2 := by
  refine ⟨?_, ?_, ?_, ?_⟩
  · simp only [fib_device_lseek, MAX_LENGTH, if_true]
    split <;> split <;> omega
  · simp only [fib_device_lseek, MAX_LENGTH, wrapS64_eq _ hcur]
    simp only [show (1 : Int) ≠ 0 by decide, if_false, if_true]
    split <;> split <;> omega
  · simp only [fib_device_lseek, MAX_LENGTH]
    have h := wrapS64_eq _ hend
    simp only [MAX_LENGTH] at h
    simp only [show (2 : Int) ≠ 0 by decide, show (2 : Int) ≠ 1 by decide, if_false, if_true, h]
    split <;> split <;> omega
  · intro orig
    refine ⟨?_, ?_, rfl⟩
    · simp only [fib_device_lseek, MAX_LENGTH]
      split <;> split <;> omega
    · simp only [fib_device_lseek, MAX_LENGTH]
      split <;> split <;> omega

theorem C5_lseek_clamp_witness :
    (fib_device_lseek 40 (-7) 0).2 = max 0 (min (-7) 100) ∧
    (fib_device_lseek 40 (-7) 1).2 = max 0 (min (40 + -7) 100) ∧
    (fib_device_lseek 40 (-7) 2).2 = max 0 (min (100 - -7) 100) :=
  ⟨(C5_lseek_clamp 40 (-7) (by decide) (by decide)).1,
   (C5_lseek_clamp 40 (-7) (by decide) (by decide)).2.1,
   (C5_lseek_clamp 40 (-7) (by decide) (by decide)).2.2.1⟩

/-- C10: for every `k < 2` the loop of `fib_sequence` is not entered: the function
returns in the state it seeded (no cell written, no pointer rotated) and the result is
the third cell, upper limb 0 and lower limb `k` reduced modulo `2^64`; so
`fib_sequence 0` is `{0, 0}` and `fib_sequence 1` is `{1, 0}` (lower, upper), whose
values are the Fibonacci numbers `F(0) = 0` and `F(1) = 1`. -/
theorem C10_fib_sequence_base (k : Int) (hk : k < 2) :
    fib_sequence_state k = some (fib_init k) ∧
    fib_sequence k = some { lower := (k % 2 ^ 64).toNat, upper := 0 } ∧
    (0 ≤ k → fib_sequence k = some { lower := k.toNat, upper := 0 }) ∧
    fib_sequence 0 = some { lower := 0, upper := 0 } ∧
    fib_sequence 1 = some { lower := 1, upper := 0 } ∧
    (BigNum.value { lower := 0, upper := 0 } = Nat.fib 0) ∧
    (BigNum.value { lower := 1, upper := 0 } = Nat.fib 1) := by
  have hs : fib_sequence_state k = some (fib_init k) := by
    unfold fib_sequence_state fib_loop
    simp only [show ¬ (2 : Int) ≤ k by omega, if_false]
  have hv : fib_sequence k = some { lower := (k % 2 ^ 64).toNat, upper := 0 } := by
    unfold fib_sequence
    rw [hs]
    rfl
  refine ⟨hs, hv, ?_, by decide, by decide, by decide, by decide⟩
  intro h0
  rw [hv]
  have : k % 2 ^ 64 = k := by omega
  rw [this]

theorem C10_fib_sequence_base_witness :
    fib_sequence (-1) = some { lower := ((-1 : Int) % 2 ^ 64).toNat, upper := 0 } :=
  (C10_fib_sequence_base (-1) (by decide)).2.1


/-! ## Decimal digits -/

theorem digitsLE_rec (v : Nat) :
    digitsLE v = if v / 10 = 0 then [v % 10] else (v % 10) :: digitsLE (v / 10) := by
  unfold digitsLE
  by_cases hv : v = 0
  · subst hv
    simp
  · rw [if_neg hv, Nat.digits_def' (by norm_num) (Nat.pos_of_ne_zero hv)]
    by_cases hq : v / 10 = 0
    · simp [hq]
    · simp [hq]

theorem digitsLE_length_pos (v : Nat) : 0 < (digitsLE v).length := by
  rw [digitsLE_rec]
  split <;> simp

theorem digitsLE_length_le (n : Nat) : ∀ v, v < 10 ^ n → 0 < n → (digitsLE v).length ≤ n := by
  induction n with
  | zero => intro v _ h; omega
  | succ n ih =>
    intro v hv _
    rw [digitsLE_rec]
    by_cases hq : v / 10 = 0
    · simp [hq]
    · rw [if_neg hq]
      have hn : 0 < n := by
        rcases Nat.eq_zero_or_pos n with h0 | h0
        · subst h0
          simp at hv
          omega
        · exact h0
      have : v / 10 < 10 ^ n := by
        rw [pow_succ] at hv
        omega
      have := ih (v / 10) this hn
      simp only [List.length_cons]
      omega

theorem digitsLE_lt_ten (v d : Nat) (h : d ∈ digitsLE v) : d < 10 := by
  unfold digitsLE at h
  by_cases hv : v = 0
  · simp [hv] at h
    omega
  · rw [if_neg hv] at h
    exact Nat.digits_lt_base (by norm_num) h

theorem digitsLE_getLast_ne_zero (v : Nat) (hv : v ≠ 0) :
    (digitsLE v).getLast (List.ne_nil_of_length_pos (digitsLE_length_pos v)) ≠ 0 := by
  have h : digitsLE v = Nat.digits 10 v := by
    unfold digitsLE
    rw [if_neg hv]
  have := Nat.getLast_digit_ne_zero 10 hv
  simp only [h]
  exact this

theorem digitChar_toNat (d : Nat) (h : d < 10) : (Nat.digitChar d).toNat = d + 48 := by
  interval_cases d <;> rfl

theorem toDigitsCore_eq (fuel : Nat) : ∀ (v : Nat) (ds : List Char), v < fuel →
    Nat.toDigitsCore 10 fuel v ds = ((digitsLE v).reverse.map Nat.digitChar) ++ ds := by
  induction fuel with
  | zero => intro v ds h; omega
  | succ fuel ih =>
    intro v ds hv
    rw [Nat.toDigitsCore, digitsLE_rec]
    by_cases hq : v / 10 = 0
    · simp [hq]
    · simp only [hq, if_false]
      rw [ih (v / 10) _ (by omega)]
      simp

theorem decimalBytes_eq (v : Nat) : decimalBytes v = (digitsLE v).reverse.map (· + 48) := by
  unfold decimalBytes Nat.toDigits
  rw [toDigitsCore_eq (v + 1) v [] (by omega)]
  simp only [List.append_nil, List.map_map]
  apply List.map_congr_left
  intro d hd
  simp only [Function.comp]
  exact digitChar_toNat d (digitsLE_lt_ten v d (List.mem_reverse.mp hd))

theorem decimalBytes_length (v : Nat) : (decimalBytes v).length = (digitsLE v).length := by
  rw [decimalBytes_eq]
  simp

/-! ## The rendering loop -/

theorem fib_read_body_idx (s : ReadState) : (fib_read_body s).idx = s.idx := by
  unfold fib_read_body
  split <;> rfl

theorem fib_read_body_wf (s : ReadState) (h : s.num.wf) : (fib_read_body s).num.wf := by
  unfold fib_read_body
  split
  · exact rightShiftBigNum_wf _ h
  · unfold BigNum.wf at h ⊢
    dsimp only
    omega

theorem fib_read_body_value (s : ReadState) (h : s.num.wf) :
    (fib_read_body s).num.value = s.num.value / 10 := by
  unfold fib_read_body
  split
  · exact rightShiftBigNum_value _ h
  · rename_i hu
    have hu0 : s.num.upper = 0 := by
      by_contra hne
      exact hu hne
    unfold BigNum.value
    dsimp only
    rw [hu0]
    omega

theorem fib_read_body_str (s : ReadState) (h : s.num.wf) :
    (fib_read_body s).str = s.str.set s.idx (s.num.value % 10 + 48) := by
  obtain ⟨hl, hu⟩ := h
  unfold fib_read_body
  split
  · have e : (((s.num.lower % 10 + ((s.num.upper % 10) * 6) % 2 ^ 64) % 2 ^ 64) % 10 + 48)
        % 2 ^ 64 % 256 = s.num.value % 10 + 48 := by
      have h6 : s.num.upper % 10 * 6 % 2 ^ 64 = s.num.upper % 10 * 6 := by omega
      rw [h6]
      have h7 : (s.num.lower % 10 + s.num.upper % 10 * 6) % 2 ^ 64 =
          s.num.lower % 10 + s.num.upper % 10 * 6 := by omega
      rw [h7]
      unfold BigNum.value
      omega
    dsimp only
    rw [e]
  · rename_i hu0
    have hu0 : s.num.upper = 0 := by
      by_contra hne
      exact hu0 hne
    have e : (s.num.lower % 10 + 48) % 2 ^ 64 % 256 = s.num.value % 10 + 48 := by
      unfold BigNum.value
      rw [hu0]
      omega
    dsimp only
    rw [e]

theorem BigNum.zero_iff (b : BigNum) : (b.lower = 0 ∧ b.upper = 0) ↔ b.value = 0 := by
  unfold BigNum.value
  constructor
  · rintro ⟨h1, h2⟩
    rw [h1, h2]
    rfl
  · intro h
    omega

theorem BigNum.eq_zero_of_value (b : BigNum) (h : b.value = 0) : b = ⟨0, 0⟩ := by
  obtain ⟨h1, h2⟩ := (BigNum.zero_iff b).mpr h
  obtain ⟨l, u⟩ := b
  simp only at h1 h2
  rw [h1, h2]

theorem fib_read_loop_spec (n : Nat) : ∀ s : ReadState, s.num.wf → s.num.value < 10 ^ n →
    0 < n →
    (fib_read_loop n s).idx + 1 = s.idx + (digitsLE s.num.value).length ∧
    (fib_read_loop n s).num = ⟨0, 0⟩ ∧
    ∀ j, (fib_read_loop n s).str j =
      if s.idx ≤ j ∧ j < s.idx + (digitsLE s.num.value).length
      then (digitsLE s.num.value).getD (j - s.idx) 0 + 48 else s.str j := by
  induction n with
  | zero => intro s _ _ h; omega
  | succ n ih =>
    intro s hwf hv _
    have hbw := fib_read_body_wf s hwf
    have hbv := fib_read_body_value s hwf
    have hbs := fib_read_body_str s hwf
    have hbi := fib_read_body_idx s
    rw [fib_read_loop]
    rw [digitsLE_rec s.num.value]
    by_cases hq : s.num.value / 10 = 0
    · have hz : (fib_read_body s).num.lower = 0 ∧ (fib_read_body s).num.upper = 0 := by
        rw [BigNum.zero_iff, hbv, hq]
      rw [if_pos hz, if_pos hq]
      refine ⟨by simp [hbi], BigNum.eq_zero_of_value _ (by rw [hbv, hq]), ?_⟩
      intro j
      rw [hbs]
      unfold Mem.set
      by_cases hj : j = s.idx
      · subst hj
        simp
      · have : ¬ (s.idx ≤ j ∧ j < s.idx + [s.num.value % 10].length) := by
          simp only [List.length_singleton]
          omega
        rw [if_neg hj, if_neg this]
    · have hz : ¬ ((fib_read_body s).num.lower = 0 ∧ (fib_read_body s).num.upper = 0) := by
        rw [BigNum.zero_iff, hbv]
        exact hq
      rw [if_neg hz, if_neg hq, hbi]
      have hn : 0 < n := by
        rcases Nat.eq_zero_or_pos n with h0 | h0
        · subst h0
          simp at hv
          omega
        · exact h0
      have hlt : s.num.value / 10 < 10 ^ n := by
        rw [pow_succ] at hv
        omega
      obtain ⟨h1, h2, h3⟩ := ih { fib_read_body s with idx := s.idx + 1 }
        hbw (by dsimp only; rw [hbv]; exact hlt) hn
      dsimp only at h1 h2 h3
      rw [hbv] at h1 h3
      refine ⟨by rw [h1]; simp only [List.length_cons]; omega, h2, ?_⟩
      intro j
      rw [h3 j, hbs]
      unfold Mem.set
      simp only [List.length_cons]
      by_cases hj : j = s.idx
      · subst hj
        simp
      · by_cases hr : s.idx + 1 ≤ j ∧ j < s.idx + 1 + (digitsLE (s.num.value / 10)).length
        · have hr2 : s.idx ≤ j ∧ j < s.idx + ((digitsLE (s.num.value / 10)).length + 1) := by
            omega
          rw [if_pos hr, if_pos hr2]
          have : j - s.idx = (j - (s.idx + 1)) + 1 := by omega
          rw [this, List.getD_cons_succ]
        · have hr2 : ¬ (s.idx ≤ j ∧ j < s.idx + ((digitsLE (s.num.value / 10)).length + 1)) := by
            omega
          rw [if_neg hr, if_neg hr2, if_neg hj]

theorem fib_read_copy_spec (str : Mem) (idx : Nat) : ∀ (j : Nat) (buf : Mem) (i : Nat),
    fib_read_copy str idx j buf i = if i ≤ j then str (idx - i) else buf i := by
  intro j
  induction j with
  | zero =>
    intro buf i
    unfold fib_read_copy Mem.set
    by_cases hi : i = 0
    · subst hi
      simp
    · have : ¬ i ≤ 0 := by omega
      rw [if_neg hi, if_neg this]
  | succ j ih =>
    intro buf i
    rw [fib_read_copy, ih]
    unfold Mem.set
    by_cases hi : i ≤ j
    · rw [if_pos hi, if_pos (by omega)]
    · rw [if_neg hi]
      by_cases hi2 : i = j + 1
      · subst hi2
        simp
      · rw [if_neg hi2, if_neg (by omega)]

theorem pow_two_128_lt : 2 ^ 128 < 10 ^ 39 := by norm_num

theorem fib_render_pointwise (num : BigNum) (h : num.wf) (str buf : Mem) :
    (fib_render num str buf).1 + 1 = (digitsLE num.value).length ∧
    (∀ i (hi : i < (digitsLE num.value).length),
      (fib_render num str buf).2 i =
        (digitsLE num.value)[(digitsLE num.value).length - 1 - i] + 48) ∧
    (fib_render num str buf).2 (digitsLE num.value).length = 0 ∧
    ∀ j, (digitsLE num.value).length < j → (fib_render num str buf).2 j = buf j := by
  have hv : num.value < 10 ^ 44 := by
    have := BigNum.value_lt num h
    have := pow_two_128_lt
    have : (10 : Nat) ^ 39 < 10 ^ 44 := by norm_num
    omega
  obtain ⟨h1, _, h3⟩ := fib_read_loop_spec 44 { num := num, str := str, idx := 0 } h hv
    (by norm_num)
  dsimp only at h1 h3
  have hpos := digitsLE_length_pos num.value
  simp only [Nat.zero_add, Nat.zero_le, true_and, Nat.sub_zero] at h1 h3
  unfold fib_render
  dsimp only
  refine ⟨h1, ?_, ?_, ?_⟩
  · intro i hi
    rw [fib_read_copy_spec, if_pos (by omega), h3, if_pos (by omega),
      List.getD_eq_getElem _ _ (by omega)]
    congr 2
    omega
  · rw [fib_read_copy_spec, if_neg (by omega)]
    unfold Mem.set
    rw [if_pos (by omega)]
  · intro j hj
    rw [fib_read_copy_spec, if_neg (by omega)]
    unfold Mem.set
    rw [if_neg (by omega)]

theorem fib_render_spec (num : BigNum) (h : num.wf) (str buf : Mem) :
    (fib_render num str buf).1 + 1 = (decimalBytes num.value).length ∧
    (fib_render num str buf).2.take (decimalBytes num.value).length = decimalBytes num.value ∧
    (fib_render num str buf).2 (decimalBytes num.value).length = 0 ∧
    ∀ j, (decimalBytes num.value).length < j → (fib_render num str buf).2 j = buf j := by
  obtain ⟨h1, h2, h3, h4⟩ := fib_render_pointwise num h str buf
  rw [decimalBytes_length]
  refine ⟨h1, ?_, h3, h4⟩
  rw [decimalBytes_eq]
  apply List.ext_getElem
  · simp [Mem.take]
  · intro i hi1 hi2
    have hi : i < (digitsLE num.value).length := by
      simpa [Mem.take] using hi1
    simp only [Mem.take, List.getElem_map, List.getElem_range, List.getElem_reverse]
    exact h2 i hi

/-! ## The Fibonacci loop -/

theorem Heap.read_write_same (h : Heap) (p : Ptr) (v : BigNum) : (h.write p v).read p = v := by
  fin_cases p <;> rfl

theorem Heap.read_write_ne (h : Heap) (p q : Ptr) (v : BigNum) (hne : q ≠ p) :
    (h.write p v).read q = h.read q := by
  fin_cases p <;> fin_cases q <;> first | rfl | exact absurd rfl hne

theorem fib_loop_iterate (k : Int) (hk : k < INT_MAX) : ∀ (n fuel : Nat) (i : Int) (s : FibState),
    n = (k + 1 - i).toNat → n + 1 ≤ fuel → fib_loop k fuel i s = some (fib_body^[n] s) := by
  unfold INT_MAX at hk
  intro n
  induction n with
  | zero =>
    intro fuel i s hi hf
    obtain ⟨f, rfl⟩ : ∃ f, fuel = f + 1 := ⟨fuel - 1, by omega⟩
    rw [fib_loop, if_neg (by omega)]
    rfl
  | succ n ih =>
    intro fuel i s hi hf
    obtain ⟨f, rfl⟩ : ∃ f, fuel = f + 1 := ⟨fuel - 1, by omega⟩
    have h1 : i ≤ k := by omega
    have h2 : i ≠ INT_MAX := by
      unfold INT_MAX
      omega
    rw [fib_loop, if_pos h1, if_neg h2, ih f (i + 1) (fib_body s) (by omega) (by omega)]
    rfl

theorem fib_sequence_state_eq (k : Nat) (hk : (k : Int) < INT_MAX) :
    fib_sequence_state k = some (fib_body^[k - 1] (fib_init k)) := by
  unfold fib_sequence_state
  apply fib_loop_iterate k hk
  · omega
  · have : ((k : Int) - 1).toNat = k - 1 := by omega
    rw [this]

theorem fib_iterate_inv (k : Int) : ∀ n : Nat,
    (fib_body^[n] (fib_init k)).first ≠ (fib_body^[n] (fib_init k)).second ∧
    (fib_body^[n] (fib_init k)).first ≠ (fib_body^[n] (fib_init k)).next ∧
    (fib_body^[n] (fib_init k)).second ≠ (fib_body^[n] (fib_init k)).next ∧
    ((fib_body^[n] (fib_init k)).heap.read (fib_body^[n] (fib_init k)).first).wf ∧
    ((fib_body^[n] (fib_init k)).heap.read (fib_body^[n] (fib_init k)).second).wf ∧
    ((fib_body^[n] (fib_init k)).heap.read (fib_body^[n] (fib_init k)).first).value
      = Nat.fib n % 2 ^ 128 ∧
    ((fib_body^[n] (fib_init k)).heap.read (fib_body^[n] (fib_init k)).second).value
      = Nat.fib (n + 1) % 2 ^ 128 ∧
    (0 < n → (fib_body^[n] (fib_init k)).temp = (fib_body^[n] (fib_init k)).second) := by
  intro n
  induction n with
  | zero =>
    simp [fib_init, Heap.read, BigNum.wf, BigNum.value]
  | succ n ih =>
    obtain ⟨d1, d2, d3, w1, w2, v1, v2, _⟩ := ih
    rw [Function.iterate_succ_apply']
    generalize fib_body^[n] (fib_init k) = s at d1 d2 d3 w1 w2 v1 v2
    unfold fib_body
    dsimp only
    refine ⟨d3, d1.symm, fun h => d2 h.symm, ?_, ?_, ?_, ?_, fun _ => rfl⟩
    · rw [Heap.read_write_ne _ _ _ _ d3]
      exact w2
    · rw [Heap.read_write_same]
      exact addBigNum_wf _ _ _
    · rw [Heap.read_write_ne _ _ _ _ d3]
      exact v2
    · rw [Heap.read_write_same, addBigNum_value _ _ _ w1 w2, v1, v2, Nat.fib_add_two]
      omega

theorem fib_sequence_value (k : Nat) (hk : (k : Int) < INT_MAX) :
    ∃ b, fib_sequence k = some b ∧ b.wf ∧ b.value = Nat.fib k % 2 ^ 128 := by
  unfold fib_sequence
  rw [fib_sequence_state_eq k hk]
  refine ⟨_, rfl, ?_⟩
  rcases Nat.lt_or_ge k 2 with h2 | h2
  · interval_cases k
    · exact ⟨by decide, by decide⟩
    · exact ⟨by decide, by decide⟩
  · obtain ⟨_, _, _, _, w2, _, v2, ht⟩ := fib_iterate_inv k (k - 1)
    dsimp only
    rw [ht (by omega)]
    have e : k - 1 + 1 = k := by omega
    rw [e] at v2
    exact ⟨w2, v2⟩

theorem fib_186_lt : Nat.fib 186 < 2 ^ 128 := by
  norm_num

theorem fib_lt_of_le_186 (k : Nat) (hk : k ≤ 186) : Nat.fib k < 2 ^ 128 :=
  lt_of_le_of_lt (Nat.fib_mono hk) fib_186_lt

theorem fib_sequence_exact (k : Nat) (hk : k ≤ 186) :
    ∃ b, fib_sequence k = some b ∧ b.wf ∧ b.value = Nat.fib k := by
  obtain ⟨b, h1, h2, h3⟩ := fib_sequence_value k (by unfold INT_MAX; omega)
  exact ⟨b, h1, h2, by rw [h3, Nat.mod_eq_of_lt (fib_lt_of_le_186 k hk)]⟩

/-! ## Claims on the rendering and on the computed terms -/

theorem fib_read_spec (k : Nat) (hk : k ≤ 186) (str buf : Mem) (size : Nat) :
    ∃ r, fib_read str buf size k = some r ∧ r.ret = 1 ∧
      r.buf.take (decimalBytes (Nat.fib k)).length = decimalBytes (Nat.fib k) ∧
      r.buf (decimalBytes (Nat.fib k)).length = 0 := by
  obtain ⟨b, h1, h2, h3⟩ := fib_sequence_exact k hk
  obtain ⟨_, r2, r3, _⟩ := fib_render_spec b h2 str buf
  rw [h3] at r2 r3
  unfold fib_read
  rw [h1]
  exact ⟨_, rfl, rfl, r2, r3⟩

/-- C1: for every index `k` from 0 to 90, `fib_read` at offset `k` returns and leaves in
`buf` the decimal numeral of the Fibonacci number `F(k)`, most significant digit first,
followed by a NUL byte; for `k = 0, 1, 2, 10, 20` the numerals are "0", "1", "1", "55"
and "6765". -/
theorem C1_read_fib_decimal (k : Nat) (hk : k ≤ 90) (str buf : Mem) (size : Nat) :
    (∃ r, fib_read str buf size k = some r ∧
      r.buf.take (decimalBytes (Nat.fib k)).length = decimalBytes (Nat.fib k) ∧
      r.buf (decimalBytes (Nat.fib k)).length = 0) ∧
    (∃ r, fib_read str buf size 0 = some r ∧
      r.buf.take 1 = "0".toList.map Char.toNat ∧ r.buf 1 = 0) ∧
    (∃ r, fib_read str buf size 1 = some r ∧
      r.buf.take 1 = "1".toList.map Char.toNat ∧ r.buf 1 = 0) ∧
    (∃ r, fib_read str buf size 2 = some r ∧
      r.buf.take 1 = "1".toList.map Char.toNat ∧ r.buf 1 = 0) ∧
    (∃ r, fib_read str buf size 10 = some r ∧
      r.buf.take 2 = "55".toList.map Char.toNat ∧ r.buf 2 = 0) ∧
    (∃ r, fib_read str buf size 20 = some r ∧
      r.buf.take 4 = "6765".toList.map Char.toNat ∧ r.buf 4 = 0) := by
  refine ⟨?_, ?_, ?_, ?_, ?_, ?_⟩
  · obtain ⟨r, h1, _, h2, h3⟩ := fib_read_spec k (by omega) str buf size
    exact ⟨r, h1, h2, h3⟩
  · obtain ⟨r, h1, _, h2, h3⟩ := fib_read_spec 0 (by omega) str buf size
    exact ⟨r, h1, h2, h3⟩
  · obtain ⟨r, h1, _, h2, h3⟩ := fib_read_spec 1 (by omega) str buf size
    exact ⟨r, h1, h2, h3⟩
  · obtain ⟨r, h1, _, h2, h3⟩ := fib_read_spec 2 (by omega) str buf size
    exact ⟨r, h1, h2, h3⟩
  · obtain ⟨r, h1, _, h2, h3⟩ := fib_read_spec 10 (by omega) str buf size
    exact ⟨r, h1, h2, h3⟩
  · obtain ⟨r, h1, _, h2, h3⟩ := fib_read_spec 20 (by omega) str buf size
    exact ⟨r, h1, h2, h3⟩

theorem C1_read_fib_decimal_witness :
    ∃ r, fib_read (fun _ => 0) (fun _ => 255) 1 (90 : Nat) = some r ∧
      r.buf.take (decimalBytes (Nat.fib 90)).length = decimalBytes (Nat.fib 90) ∧
      r.buf (decimalBytes (Nat.fib 90)).length = 0 :=
  (C1_read_fib_decimal 90 (by decide) (fun _ => 0) (fun _ => 255) 1).1

/-- C2: for every `BigNum` with limbs in range, the digit loop and the reversal of
`fib_read` leave in `buf` the decimal numeral (the digits of `Nat.repr`) of
`upper * 2^64 + lower`, most significant digit first, then a NUL byte, and leave the
bytes after the NUL as they were. -/
theorem C2_render_decimal (num : BigNum) (h : num.wf) (str buf : Mem) :
    (fib_render num str buf).2.take (decimalBytes (num.upper * 2 ^ 64 + num.lower)).length
      = decimalBytes (num.upper * 2 ^ 64 + num.lower) ∧
    (fib_render num str buf).2 (decimalBytes (num.upper * 2 ^ 64 + num.lower)).length = 0 ∧
    (∀ j, (decimalBytes (num.upper * 2 ^ 64 + num.lower)).length < j →
      (fib_render num str buf).2 j = buf j) ∧
    decimalBytes (num.upper * 2 ^ 64 + num.lower)
      = (Nat.repr (num.upper * 2 ^ 64 + num.lower)).toList.map Char.toNat := by
  obtain ⟨_, h2, h3, h4⟩ := fib_render_spec num h str buf
  exact ⟨h2, h3, h4, rfl⟩

theorem C2_render_decimal_witness :
    (fib_render ⟨2 ^ 64 - 1, 2 ^ 64 - 1⟩ (fun _ => 0) (fun _ => 255)).2.take
        (decimalBytes ((2 ^ 64 - 1) * 2 ^ 64 + (2 ^ 64 - 1))).length
      = decimalBytes ((2 ^ 64 - 1) * 2 ^ 64 + (2 ^ 64 - 1)) :=
  (C2_render_decimal ⟨2 ^ 64 - 1, 2 ^ 64 - 1⟩ (by decide) (fun _ => 0) (fun _ => 255)).1

/-- C6 as stated fails: at index 100, the largest the seek clamp permits, `fib_sequence`
returns the limbs `upper = 19`, `lower = 3736710778780434371`, whose value is exactly
the Fibonacci number `F(100)`. -/
theorem C6_not_wrapped_at_100 :
    fib_sequence 100 = some { lower := 3736710778780434371, upper := 19 } ∧
    BigNum.value { lower := 3736710778780434371, upper := 19 } = Nat.fib 100 := by
  decide

theorem fib_93_ge : 2 ^ 63 ≤ Nat.fib 93 := by
  norm_num

/-- C6, amended: the two-limb representation holds every Fibonacci term above index 92
that the seek clamp permits: for `92 < k ≤ 100`, `F(k)` is at least `2^63` (beyond a
signed 64-bit integer) and below `2^128`, and `fib_sequence k` returns limbs whose value
`upper * 2^64 + lower` is exactly `F(k)`. -/
theorem C6_exact_above_92 (k : Nat) (h1 : 92 < k) (h2 : k ≤ 100) :
    ∃ b, fib_sequence k = some b ∧ b.upper * 2 ^ 64 + b.lower = Nat.fib k ∧
      2 ^ 63 ≤ Nat.fib k ∧ Nat.fib k < 2 ^ 128 := by
  obtain ⟨b, hb, _, hv⟩ := fib_sequence_exact k (by omega)
  exact ⟨b, hb, hv, le_trans fib_93_ge (Nat.fib_mono (by omega)), fib_lt_of_le_186 k (by omega)⟩

theorem C6_exact_above_92_witness :
    ∃ b, fib_sequence (93 : Nat) = some b ∧ b.upper * 2 ^ 64 + b.lower = Nat.fib 93 ∧
      2 ^ 63 ≤ Nat.fib 93 ∧ Nat.fib 93 < 2 ^ 128 :=
  C6_exact_above_92 93 (by decide) (by decide)

/-- C7: for every `BigNum` with limbs in range, the rendering of `fib_read` has no
leading zero unless the value is zero: when `upper * 2^64 + lower > 0` the byte at
`buf[0]` is one of the digits 1 to 9, and when the value is zero the output is the one
character "0" followed by the NUL. -/
theorem C7_no_leading_zero (num : BigNum) (h : num.wf) (str buf : Mem) :
    (0 < num.upper * 2 ^ 64 + num.lower →
      49 ≤ (fib_render num str buf).2 0 ∧ (fib_render num str buf).2 0 ≤ 57) ∧
    (num.upper * 2 ^ 64 + num.lower = 0 →
      (fib_render num str buf).2.take 1 = "0".toList.map Char.toNat ∧
      (fib_render num str buf).2 1 = 0) := by
  constructor
  · intro hpos
    have hv : num.value ≠ 0 := by
      unfold BigNum.value
      omega
    obtain ⟨_, h2, _, _⟩ := fib_render_pointwise num h str buf
    have hL := digitsLE_length_pos num.value
    rw [h2 0 hL]
    have hlast := digitsLE_getLast_ne_zero num.value hv
    rw [List.getLast_eq_getElem] at hlast
    have hlt := digitsLE_lt_ten num.value _
      (List.getElem_mem (show (digitsLE num.value).length - 1 < (digitsLE num.value).length by omega))
    simp only [Nat.sub_zero]
    omega
  · intro hz
    obtain ⟨_, h2, h3, _⟩ := fib_render_spec num h str buf
    have hv : num.value = 0 := hz
    rw [hv] at h2 h3
    exact ⟨h2, h3⟩

theorem C7_no_leading_zero_witness :
    49 ≤ (fib_render ⟨0, 1⟩ (fun _ => 0) (fun _ => 255)).2 0 ∧
    (fib_render ⟨0, 1⟩ (fun _ => 0) (fun _ => 255)).2 0 ≤ 57 :=
  (C7_no_leading_zero ⟨0, 1⟩ (by decide) (fun _ => 0) (fun _ => 255)).1 (by decide)

/-- C8: for every `BigNum` with limbs in range, the maximum included, the rendering
loop of `fib_read` ends with `idx` below 44, and the bytes it leaves in `buf` are `n`
digit characters followed by the NUL, with `n = idx + 1` at most 44. -/
theorem C8_render_bounded (num : BigNum) (h : num.wf) (str buf : Mem) :
    (fib_read_loop 44 { num := num, str := str, idx := 0 }).idx < 44 ∧
    ∃ n, n ≤ 44 ∧ (fib_render num str buf).1 + 1 = n ∧
      (∀ i, i < n → 48 ≤ (fib_render num str buf).2 i ∧ (fib_render num str buf).2 i ≤ 57) ∧
      (fib_render num str buf).2 n = 0 := by
  obtain ⟨h1, h2, h3, _⟩ := fib_render_pointwise num h str buf
  have hlen : (digitsLE num.value).length ≤ 39 :=
    digitsLE_length_le 39 num.value (lt_trans (BigNum.value_lt num h) pow_two_128_lt)
      (by norm_num)
  constructor
  · have : (fib_render num str buf).1 = (fib_read_loop 44 { num := num, str := str, idx := 0 }).idx :=
      rfl
    omega
  · refine ⟨(digitsLE num.value).length, by omega, h1, ?_, h3⟩
    intro i hi
    rw [h2 i hi]
    have hlt := digitsLE_lt_ten num.value _
      (List.getElem_mem (show (digitsLE num.value).length - 1 - i < (digitsLE num.value).length by omega))
    omega

theorem C8_render_bounded_witness :
    (fib_read_loop 44 { num := ⟨2 ^ 64 - 1, 2 ^ 64 - 1⟩, str := fun _ => 0, idx := 0 }).idx < 44 :=
  (C8_render_bounded ⟨2 ^ 64 - 1, 2 ^ 64 - 1⟩ (by decide) (fun _ => 0) (fun _ => 255)).1

/-! ## Claims on the write and seek operations -/

/-- C11: `fib_write` returns 1 for every buffer content, size and offset, and changes
no state: the user memory and `*offset` are as on entry, so a read at the position
left by the write gives what a read at the position before the write gives. -/
theorem C11_write_constant (wbuf : Mem) (wsize : Nat) (offset : Int) :
    (fib_write wbuf wsize offset).ret = 1 ∧
    (fib_write wbuf wsize offset).buf = wbuf ∧
    (fib_write wbuf wsize offset).offset = offset ∧
    ∀ (str buf : Mem) (size : Nat),
      fib_read str buf size (fib_write wbuf wsize offset).offset = fib_read str buf size offset :=
  ⟨rfl, rfl, rfl, fun _ _ _ => rfl⟩

/-- C18: for every whence other than 0, 1 and 2, every offset and every current
position, `fib_device_lseek` reports no error: it returns 0 and sets `file->f_pos`
to 0. -/
theorem C18_lseek_unknown_whence (f_pos offset orig : Int)
    (h0 : orig ≠ 0) (h1 : orig ≠ 1) (h2 : orig ≠ 2) :
    fib_device_lseek f_pos offset orig = (0, 0) := by
  simp [fib_device_lseek, h0, h1, h2, MAX_LENGTH]

theorem C18_lseek_unknown_whence_witness :
    fib_device_lseek 57 (-3) 3 = (0, 0) ∧ fib_device_lseek 57 1000 (-1) = (0, 0) :=
  ⟨C18_lseek_unknown_whence 57 (-3) 3 (by decide) (by decide) (by decide),
   C18_lseek_unknown_whence 57 1000 (-1) (by decide) (by decide) (by decide)⟩

/-! ## Claims on the recurrence and on the digit formula -/

theorem fib_187_ge : 2 ^ 128 ≤ Nat.fib 187 := by
  norm_num

/-- C12: for every `k` with `0 ≤ k < 2^31 - 1`, `fib_sequence k` returns limbs in range
whose value `upper * 2^64 + lower` is `F(k) mod 2^128`; so whenever `F(k)` is `2^128` or
more, the value returned differs from `F(k)`, and no error is reported. -/
theorem C12_fib_sequence_mod (k : Nat) (hk : (k : Int) < 2 ^ 31 - 1) :
    ∃ b, fib_sequence k = some b ∧ b.wf ∧
      b.upper * 2 ^ 64 + b.lower = Nat.fib k % 2 ^ 128 ∧
      (2 ^ 128 ≤ Nat.fib k → b.upper * 2 ^ 64 + b.lower ≠ Nat.fib k) := by
  obtain ⟨b, h1, h2, h3⟩ := fib_sequence_value k hk
  refine ⟨b, h1, h2, h3, ?_⟩
  intro hge
  have hv : b.value = b.upper * 2 ^ 64 + b.lower := rfl
  have hlt := BigNum.value_lt b h2
  omega

theorem C12_fib_sequence_mod_witness :
    ∃ b, fib_sequence (187 : Nat) = some b ∧ b.wf ∧
      b.upper * 2 ^ 64 + b.lower = Nat.fib 187 % 2 ^ 128 ∧
      (2 ^ 128 ≤ Nat.fib 187 → b.upper * 2 ^ 64 + b.lower ≠ Nat.fib 187) :=
  C12_fib_sequence_mod 187 (by decide)

/-- C14: for every `BigNum`, the digit expression `(lower % 10 + (upper % 10) * 6) % 10`
is the last decimal digit of `upper * 2^64 + lower`, because `2^64 mod 10 = 6`; the
product and the sum in it stay below `2^64`, and the byte the upper branch of `fib_read`
stores in `str[idx]` is that digit plus the code of the character 0. -/
theorem C14_digit_formula (num : BigNum) (str : Mem) (idx : Nat) :
    (num.lower % 10 + num.upper % 10 * 6) % 10 = num.value % 10 ∧
    2 ^ 64 % 10 = 6 ∧
    num.upper % 10 * 6 < 2 ^ 64 ∧
    num.lower % 10 + num.upper % 10 * 6 < 2 ^ 64 ∧
    (num.upper ≠ 0 →
      (fib_read_body { num := num, str := str, idx := idx }).str idx = num.value % 10 + 48) := by
  have e : (((num.lower % 10 + ((num.upper % 10) * 6) % 2 ^ 64) % 2 ^ 64) % 10 + 48)
      % 2 ^ 64 % 256 = num.value % 10 + 48 := by
    have h6 : num.upper % 10 * 6 % 2 ^ 64 = num.upper % 10 * 6 := by omega
    rw [h6]
    have h7 : (num.lower % 10 + num.upper % 10 * 6) % 2 ^ 64 =
        num.lower % 10 + num.upper % 10 * 6 := by omega
    rw [h7]
    unfold BigNum.value
    omega
  refine ⟨?_, by norm_num, by omega, by omega, ?_⟩
  · unfold BigNum.value
    omega
  · intro hu
    unfold fib_read_body
    rw [if_pos hu]
    dsimp only
    rw [e]
    unfold Mem.set
    rw [if_pos rfl]

theorem C14_digit_formula_witness :
    (fib_read_body { num := ⟨2 ^ 64 - 3, 2 ^ 64 - 9⟩, str := fun _ => 0, idx := 4 }).str 4 =
      (BigNum.value ⟨2 ^ 64 - 3, 2 ^ 64 - 9⟩) % 10 + 48 :=
  (C14_digit_formula ⟨2 ^ 64 - 3, 2 ^ 64 - 9⟩ (fun _ => 0) 4).2.2.2.2 (by decide)

theorem fib_loop_split (k : Int) (hk : k < INT_MAX) : ∀ (n fuel : Nat) (i : Int) (s : FibState),
    i + n ≤ k + 1 → fib_loop k (fuel + n) i s = fib_loop k fuel (i + n) (fib_body^[n] s) := by
  unfold INT_MAX at hk
  intro n
  induction n with
  | zero =>
    intro fuel i s _
    simp
  | succ n ih =>
    intro fuel i s hi
    have h1 : i ≤ k := by omega
    have h2 : i ≠ INT_MAX := by
      unfold INT_MAX
      omega
    have e : fuel + (n + 1) = (fuel + n) + 1 := by omega
    rw [e, fib_loop, if_pos h1, if_neg h2, ih fuel (i + 1) (fib_body s) (by omega)]
    have e2 : i + 1 + (n : Int) = i + ((n + 1 : Nat) : Int) := by
      push_cast
      omega
    rw [e2]
    rfl

theorem fib_sequence_state_split (k i : Nat) (hk : (k : Int) < INT_MAX) (h2 : 2 ≤ i)
    (hi : i ≤ k) :
    fib_sequence_state k =
      fib_loop k (k - i + 1) ((i : Int) + 1) (fib_body^[i - 1] (fib_init k)) := by
  unfold fib_sequence_state
  have e : ((k : Int) - 1).toNat + 1 = (k - i + 1) + (i - 1) := by omega
  rw [e, fib_loop_split k hk (i - 1) (k - i + 1) 2 _ (by omega)]
  have e2 : (2 : Int) + ((i - 1 : Nat) : Int) = (i : Int) + 1 := by omega
  rw [e2]

theorem fib_iterate_first (k : Int) (n : Nat) (hn : (n : Int) < INT_MAX) :
    fib_sequence n =
      some ((fib_body^[n] (fib_init k)).heap.read (fib_body^[n] (fib_init k)).first) := by
  obtain ⟨b, h1, h2, h3⟩ := fib_sequence_value n hn
  obtain ⟨_, _, _, w1, _, v1, _, _⟩ := fib_iterate_inv k n
  rw [h1, BigNum.eq_of_value _ _ h2 w1 (by rw [h3, v1])]

theorem fib_iterate_second (k : Int) (n : Nat) (hn : ((n + 1 : Nat) : Int) < INT_MAX) :
    fib_sequence (n + 1 : Nat) =
      some ((fib_body^[n] (fib_init k)).heap.read (fib_body^[n] (fib_init k)).second) := by
  obtain ⟨b, h1, h2, h3⟩ := fib_sequence_value (n + 1) hn
  obtain ⟨_, _, _, _, w2, _, v2, _⟩ := fib_iterate_inv k n
  rw [h1, BigNum.eq_of_value _ _ h2 w2 (by rw [h3, v2])]

theorem fib_body_temp (s : FibState) :
    (fib_body s).temp = s.next ∧
    (fib_body s).heap.read (fib_body s).temp =
      addBigNum (s.heap.read s.next) (s.heap.read s.first) (s.heap.read s.second) := by
  unfold fib_body
  exact ⟨rfl, Heap.read_write_same _ _ _⟩

/-- C13: the three-slot rotation of `fib_sequence` implements the recurrence. For every
`k` with `2 ≤ k < 2^31 - 1`, `fib_sequence k` has the limbs `addBigNum` gives for
`fib_sequence (k - 2)` and `fib_sequence (k - 1)`; after the iteration with counter `i`
the loop goes on from counter `i + 1` with `first` and `second` pointing to cells that
hold `fib_sequence (i - 1)` and `fib_sequence i`, and `temp` equal to `second`; and the
returned `temp` is the cell `next` pointed to before the last iteration, holding what
the last `addBigNum` stored. -/
theorem C13_rotation_recurrence (k : Nat) (h2 : 2 ≤ k) (hk : (k : Int) < 2 ^ 31 - 1) :
    (∃ b b1 b2, fib_sequence k = some b ∧ fib_sequence (k - 1 : Nat) = some b1 ∧
      fib_sequence (k - 2 : Nat) = some b2 ∧ ∀ s, b = addBigNum s b2 b1) ∧
    (∀ i : Nat, 2 ≤ i → i ≤ k →
      fib_sequence_state k =
        fib_loop k (k - i + 1) ((i : Int) + 1) (fib_body^[i - 1] (fib_init k)) ∧
      fib_sequence (i - 1 : Nat) = some ((fib_body^[i - 1] (fib_init k)).heap.read
        (fib_body^[i - 1] (fib_init k)).first) ∧
      fib_sequence i = some ((fib_body^[i - 1] (fib_init k)).heap.read
        (fib_body^[i - 1] (fib_init k)).second) ∧
      (fib_body^[i - 1] (fib_init k)).temp = (fib_body^[i - 1] (fib_init k)).second) ∧
    fib_sequence_state k = some (fib_body^[k - 1] (fib_init k)) ∧
    (fib_body^[k - 1] (fib_init k)).temp = (fib_body^[k - 2] (fib_init k)).next ∧
    (fib_body^[k - 1] (fib_init k)).heap.read (fib_body^[k - 1] (fib_init k)).temp =
      addBigNum ((fib_body^[k - 2] (fib_init k)).heap.read (fib_body^[k - 2] (fib_init k)).next)
        ((fib_body^[k - 2] (fib_init k)).heap.read (fib_body^[k - 2] (fib_init k)).first)
        ((fib_body^[k - 2] (fib_init k)).heap.read (fib_body^[k - 2] (fib_init k)).second) := by
  have hk0 : (k : Int) < INT_MAX := hk
  unfold INT_MAX at hk0
  refine ⟨?_, ?_, fib_sequence_state_eq k hk, ?_⟩
  · obtain ⟨b, hb, wb, vb⟩ := fib_sequence_value k hk
    obtain ⟨b1, hb1, wb1, vb1⟩ := fib_sequence_value (k - 1) (by unfold INT_MAX; omega)
    obtain ⟨b2, hb2, wb2, vb2⟩ := fib_sequence_value (k - 2) (by unfold INT_MAX; omega)
    refine ⟨b, b1, b2, hb, hb1, hb2, ?_⟩
    intro s
    apply BigNum.eq_of_value _ _ wb (addBigNum_wf _ _ _)
    rw [addBigNum_value _ _ _ wb2 wb1, vb, vb1, vb2]
    have e : k = (k - 2) + 2 := by omega
    have e1 : k - 1 = (k - 2) + 1 := by omega
    rw [e1]
    nth_rewrite 1 [e]
    rw [Nat.fib_add_two]
    omega
  · intro i hi2 hik
    refine ⟨fib_sequence_state_split k i hk hi2 hik, ?_, ?_, ?_⟩
    · exact fib_iterate_first k (i - 1) (by unfold INT_MAX; omega)
    · have e : i = (i - 1) + 1 := by omega
      have := fib_iterate_second k (i - 1) (by unfold INT_MAX; omega)
      rw [← e] at this
      exact this
    · obtain ⟨_, _, _, _, _, _, _, ht⟩ := fib_iterate_inv k (i - 1)
      exact ht (by omega)
  · have e : k - 1 = (k - 2) + 1 := by omega
    rw [e, Function.iterate_succ_apply']
    exact fib_body_temp _

theorem C13_rotation_recurrence_witness :
    ∃ b b1 b2, fib_sequence (95 : Nat) = some b ∧ fib_sequence (95 - 1 : Nat) = some b1 ∧
      fib_sequence (95 - 2 : Nat) = some b2 ∧ ∀ s, b = addBigNum s b2 b1 :=
  (C13_rotation_recurrence 95 (by decide) (by decide)).1

/-- C16: for every index `k` from 0 to 186, every `addBigNum` call of `fib_sequence k`
has operands whose sum is below `2^128`, and the value returned is exactly the
Fibonacci number `F(k)`; this holds in particular for every index from 0 to 100, and
186 is the last such index: `fib_sequence 187` returns a value other than `F(187)`. -/
theorem C16_exact_up_to_186 (k : Nat) (hk : k ≤ 186) :
    (∃ b, fib_sequence k = some b ∧ b.upper * 2 ^ 64 + b.lower = Nat.fib k) ∧
    (∀ n : Nat, n + 2 ≤ k →
      ((fib_body^[n] (fib_init k)).heap.read (fib_body^[n] (fib_init k)).first).value +
      ((fib_body^[n] (fib_init k)).heap.read (fib_body^[n] (fib_init k)).second).value
        < 2 ^ 128) ∧
    (∀ j : Nat, j ≤ 100 →
      ∃ b, fib_sequence j = some b ∧ b.upper * 2 ^ 64 + b.lower = Nat.fib j) ∧
    (∃ b, fib_sequence 187 = some b ∧ b.upper * 2 ^ 64 + b.lower ≠ Nat.fib 187) := by
  refine ⟨?_, ?_, ?_, ?_⟩
  · obtain ⟨b, h1, _, h3⟩ := fib_sequence_exact k hk
    exact ⟨b, h1, h3⟩
  · intro n hn
    obtain ⟨_, _, _, _, _, v1, v2, _⟩ := fib_iterate_inv k n
    rw [v1, v2]
    have h := fib_lt_of_le_186 (n + 2) (by omega)
    rw [Nat.fib_add_two] at h
    omega
  · intro j hj
    obtain ⟨b, h1, _, h3⟩ := fib_sequence_exact j (by omega)
    exact ⟨b, h1, h3⟩
  · obtain ⟨b, h1, h2, h3⟩ := fib_sequence_value 187 (by decide)
    refine ⟨b, h1, ?_⟩
    have hv : b.value = b.upper * 2 ^ 64 + b.lower := rfl
    have hlt := BigNum.value_lt b h2
    have := fib_187_ge
    omega

theorem C16_exact_up_to_186_witness :
    ∃ b, fib_sequence (186 : Nat) = some b ∧ b.upper * 2 ^ 64 + b.lower = Nat.fib 186 :=
  (C16_exact_up_to_186 186 (by decide)).1

/-! ## Claims on the branches and on the exit of the rendering loop -/

theorem rightShiftBigNum_upper_zero (num : BigNum) (h : num.wf) (hu : num.upper = 0) :
    rightShiftBigNum num = { lower := num.lower / 10, upper := 0 } := by
  have h1 := rightShiftBigNum_lower num h
  have h2 := rightShiftBigNum_upper num
  rw [hu] at h1 h2
  generalize rightShiftBigNum num = r at h1 h2
  obtain ⟨l, u⟩ := r
  simp only at h1 h2
  rw [h1, h2]
  simp

theorem fib_read_body_upper_eq (s : ReadState) (h : s.num.wf) :
    fib_read_body_upper s = fib_read_body s := by
  unfold fib_read_body_upper fib_read_body
  by_cases hu : s.num.upper ≠ 0
  · rw [if_pos hu]
  · rw [if_neg hu]
    have hu0 : s.num.upper = 0 := by
      by_contra hne
      exact hu hne
    have e : (((s.num.lower % 10 + ((s.num.upper % 10) * 6) % 2 ^ 64) % 2 ^ 64) % 10 + 48)
        % 2 ^ 64 % 256 = (s.num.lower % 10 + 48) % 2 ^ 64 % 256 := by
      rw [hu0]
      omega
    have e2 : rightShiftBigNum s.num = { s.num with lower := s.num.lower / 10 } := by
      rw [rightShiftBigNum_upper_zero _ h hu0]
      dsimp only
      rw [hu0]
    rw [e, e2]

theorem fib_read_loop_upper_eq (n : Nat) : ∀ s : ReadState, s.num.wf →
    fib_read_loop_upper n s = fib_read_loop n s := by
  induction n with
  | zero => intro s _; rfl
  | succ n ih =>
    intro s h
    rw [fib_read_loop_upper, fib_read_loop, fib_read_body_upper_eq s h]
    split
    · rfl
    · exact ih _ (fib_read_body_wf s h)

/-- C15: the two branches of the rendering step agree when `upper` is 0. For limbs in
range with `upper = 0`, the digit of the upper branch is `lower % 10`,
`rightShiftBigNum` leaves `lower / 10` and `upper = 0`, and the step through the upper
branch is the step `fib_read` takes; so the renderer that takes the upper branch
whatever `upper` is leaves the same `idx` and the same `buf` for every input. -/
theorem C15_branches_agree (num : BigNum) (h : num.wf) (str buf : Mem) (idx : Nat) :
    (num.upper = 0 →
      (num.lower % 10 + num.upper % 10 * 6) % 10 = num.lower % 10 ∧
      rightShiftBigNum num = { lower := num.lower / 10, upper := 0 }) ∧
    fib_read_body_upper { num := num, str := str, idx := idx } =
      fib_read_body { num := num, str := str, idx := idx } ∧
    fib_render_upper num str buf = fib_render num str buf := by
  refine ⟨?_, fib_read_body_upper_eq _ h, ?_⟩
  · intro hu
    refine ⟨?_, rightShiftBigNum_upper_zero num h hu⟩
    rw [hu]
    omega
  · unfold fib_render_upper fib_render
    rw [fib_read_loop_upper_eq 44 _ h]

theorem C15_branches_agree_witness :
    rightShiftBigNum ⟨2 ^ 64 - 1, 0⟩ = { lower := (2 ^ 64 - 1) / 10, upper := 0 } ∧
    fib_render_upper ⟨2 ^ 64 - 1, 0⟩ (fun _ => 0) (fun _ => 255) =
      fib_render ⟨2 ^ 64 - 1, 0⟩ (fun _ => 0) (fun _ => 255) :=
  ⟨((C15_branches_agree ⟨2 ^ 64 - 1, 0⟩ (by decide) (fun _ => 0) (fun _ => 255) 0).1 rfl).2,
   (C15_branches_agree ⟨2 ^ 64 - 1, 0⟩ (by decide) (fun _ => 0) (fun _ => 255) 0).2.2⟩

/-- C17: for every `BigNum` with limbs in range, the loop of `fib_read` leaves through
the `break`, both limbs zero, with `idx` at most 38 and never 44; the number `idx + 1`
of digits written is the length of the decimal numeral of the value, between 1 and 39;
the NUL is stored at `buf[idx + 1]`; and neither the bytes of `str` up to `idx` nor any
byte of `buf` depends on what `str` held on entry. -/
theorem C17_break_exit (num : BigNum) (h : num.wf) (str buf : Mem) :
    (fib_read_loop 44 { num := num, str := str, idx := 0 }).num = { lower := 0, upper := 0 } ∧
    (fib_read_loop 44 { num := num, str := str, idx := 0 }).idx ≤ 38 ∧
    (fib_read_loop 44 { num := num, str := str, idx := 0 }).idx ≠ 44 ∧
    (fib_read_loop 44 { num := num, str := str, idx := 0 }).idx + 1
      = (decimalBytes (num.upper * 2 ^ 64 + num.lower)).length ∧
    1 ≤ (decimalBytes (num.upper * 2 ^ 64 + num.lower)).length ∧
    (decimalBytes (num.upper * 2 ^ 64 + num.lower)).length ≤ 39 ∧
    (fib_render num str buf).2 ((fib_read_loop 44 { num := num, str := str, idx := 0 }).idx + 1)
      = 0 ∧
    ∀ str2 : Mem,
      (fib_read_loop 44 { num := num, str := str2, idx := 0 }).idx =
        (fib_read_loop 44 { num := num, str := str, idx := 0 }).idx ∧
      (∀ i, i ≤ (fib_read_loop 44 { num := num, str := str, idx := 0 }).idx →
        (fib_read_loop 44 { num := num, str := str2, idx := 0 }).str i =
          (fib_read_loop 44 { num := num, str := str, idx := 0 }).str i) ∧
      ∀ j, (fib_render num str2 buf).2 j = (fib_render num str buf).2 j := by
  have hv : num.value < 10 ^ 44 := by
    have := BigNum.value_lt num h
    have := pow_two_128_lt
    have : (10 : Nat) ^ 39 < 10 ^ 44 := by norm_num
    omega
  have hlen : (digitsLE num.value).length ≤ 39 :=
    digitsLE_length_le 39 num.value (lt_trans (BigNum.value_lt num h) pow_two_128_lt)
      (by norm_num)
  have hpos := digitsLE_length_pos num.value
  have hdl : (decimalBytes (num.upper * 2 ^ 64 + num.lower)).length = (digitsLE num.value).length :=
    decimalBytes_length num.value
  obtain ⟨h1, h2, h3⟩ := fib_read_loop_spec 44 { num := num, str := str, idx := 0 } h hv
    (by norm_num)
  dsimp only at h1 h3
  obtain ⟨p1, p2, p3, p4⟩ := fib_render_pointwise num h str buf
  refine ⟨h2, by omega, by omega, by omega, by omega, by omega, ?_, ?_⟩
  · have e : (fib_read_loop 44 { num := num, str := str, idx := 0 }).idx + 1
        = (digitsLE num.value).length := by omega
    rw [e]
    exact p3
  · intro str2
    obtain ⟨g1, _, g3⟩ := fib_read_loop_spec 44 { num := num, str := str2, idx := 0 } h hv
      (by norm_num)
    dsimp only at g1 g3
    obtain ⟨q1, q2, q3, q4⟩ := fib_render_pointwise num h str2 buf
    refine ⟨by omega, ?_, ?_⟩
    · intro i hi
      rw [g3 i, h3 i, if_pos (by omega), if_pos (by omega)]
    · intro j
      rcases Nat.lt_trichotomy j (digitsLE num.value).length with hj | hj | hj
      · rw [p2 j hj, q2 j hj]
      · rw [hj, p3, q3]
      · rw [p4 j hj, q4 j hj]

theorem C17_break_exit_witness :
    (fib_read_loop 44 { num := ⟨2 ^ 64 - 1, 2 ^ 64 - 1⟩, str := fun _ => 0, idx := 0 }).num
      = { lower := 0, upper := 0 } ∧
    (fib_read_loop 44 { num := ⟨2 ^ 64 - 1, 2 ^ 64 - 1⟩, str := fun _ => 0, idx := 0 }).idx ≤ 38 :=
  ⟨(C17_break_exit ⟨2 ^ 64 - 1, 2 ^ 64 - 1⟩ (by decide) (fun _ => 0) (fun _ => 255)).1,
   (C17_break_exit ⟨2 ^ 64 - 1, 2 ^ 64 - 1⟩ (by decide) (fun _ => 0) (fun _ => 255)).2.1⟩

/-! ## Claims on the frame of the read operation -/

theorem fib_loop_none (k : Int) (hk : INT_MAX ≤ k) : ∀ (fuel : Nat) (i : Int) (s : FibState),
    i ≤ INT_MAX → fib_loop k fuel i s = none := by
  intro fuel
  induction fuel with
  | zero => intro i s _; rfl
  | succ fuel ih =>
    intro i s hi
    rw [fib_loop, if_pos (le_trans hi hk)]
    by_cases h : i = INT_MAX
    · rw [if_pos h]
    · rw [if_neg h]
      exact ih (i + 1) (fib_body s) (by omega)

theorem fib_sequence_none (k : Int) (hk : INT_MAX ≤ k) : fib_sequence k = none := by
  unfold fib_sequence fib_sequence_state
  rw [fib_loop_none k hk _ 2 _ (by decide)]
  rfl

theorem fib_sequence_some (k : Int) (hk : k < INT_MAX) :
    ∃ b, fib_sequence k = some b ∧ b.wf := by
  rcases lt_or_le k 0 with hneg | hpos
  · have hs : fib_sequence_state k = some (fib_init k) := by
      unfold fib_sequence_state fib_loop
      simp only [show ¬ (2 : Int) ≤ k by omega, if_false]
    refine ⟨_, by unfold fib_sequence; rw [hs]; rfl, ?_⟩
    show (BigNum.mk (toU64 k) 0).wf
    unfold BigNum.wf toU64
    constructor
    · dsimp only
      omega
    · norm_num
  · obtain ⟨n, rfl⟩ : ∃ n : Nat, k = n := ⟨k.toNat, by omega⟩
    obtain ⟨b, h1, h2, _⟩ := fib_sequence_value n hk
    exact ⟨b, h1, h2⟩

/-- C19 as stated fails: at the offset `2^31 - 1` the `int` counter of `fib_sequence`
cannot pass `k`, the loop does not end and `fib_read` returns nothing. -/
theorem C19_no_return_at_int_max :
    fib_read (fun _ => 0) (fun _ => 0) 1 (2 ^ 31 - 1) = none := by
  unfold fib_read
  rw [fib_sequence_none (2 ^ 31 - 1) (by decide)]
  rfl

/-- C19, amended: for every offset below `2^31 - 1`, `fib_read` returns 1 and leaves
`*offset` unchanged; it stores a string with its NUL at some index `n` and leaves the
bytes of `buf` after `n` as they were; and a read at the same offset with any other
`size`, prior buffer content and prior content of `str` also returns 1 and stores the
same bytes at the indices up to `n`. -/
theorem C19_read_frame (offset : Int) (h : offset < 2 ^ 31 - 1) (str buf : Mem) (size : Nat) :
    ∃ r, fib_read str buf size offset = some r ∧ r.ret = 1 ∧ r.offset = offset ∧
      ∃ n, r.buf n = 0 ∧ (∀ j, j < n → 48 ≤ r.buf j ∧ r.buf j ≤ 57) ∧
        (∀ j, n < j → r.buf j = buf j) ∧
        ∀ (str2 buf2 : Mem) (size2 : Nat),
          ∃ r2, fib_read str2 buf2 size2 offset = some r2 ∧ r2.ret = 1 ∧
            r2.offset = offset ∧
            (∀ j, j ≤ n → r2.buf j = r.buf j) ∧ (∀ j, n < j → r2.buf j = buf2 j) := by
  obtain ⟨b, hb, wb⟩ := fib_sequence_some offset h
  obtain ⟨_, p2, p3, p4⟩ := fib_render_pointwise b wb str buf
  unfold fib_read
  rw [hb]
  refine ⟨_, rfl, rfl, rfl, (digitsLE b.value).length, p3, ?_, p4, ?_⟩
  · intro j hj
    dsimp only
    rw [p2 j hj]
    have hlt := digitsLE_lt_ten b.value _
      (List.getElem_mem (show (digitsLE b.value).length - 1 - j < (digitsLE b.value).length by omega))
    omega
  · intro str2 buf2 size2
    obtain ⟨_, q2, q3, q4⟩ := fib_render_pointwise b wb str2 buf2
    refine ⟨_, rfl, rfl, rfl, ?_, q4⟩
    intro j hj
    dsimp only
    rcases Nat.lt_or_ge j (digitsLE b.value).length with hlt | hge
    · rw [p2 j hlt, q2 j hlt]
    · have e : j = (digitsLE b.value).length := by omega
      rw [e, p3, q3]

theorem C19_read_frame_witness :
    ∃ r, fib_read (fun _ => 0) (fun _ => 255) 1 100 = some r ∧ r.ret = 1 ∧ r.offset = 100 :=
  let ⟨r, h1, h2, h3, _⟩ := C19_read_frame 100 (by decide) (fun _ => 0) (fun _ => 255) 1
  ⟨r, h1, h2, h3⟩

end Fibdrv
